import Mathlib

/-!
Shallow embedding of the frecency ranking engine of seagoat/repository.py
(SeaGOAT), together with theorems checking the natural-language
specification against that code.

Modelling conventions:
* Python strings are Lean String values; character-level work happens on
  List Char.
* Python exceptions are Except PyErr results; the PyErr constructors mirror
  the Python exception classes that the analysed code can raise.
* External collaborators (git subprocesses, the tracked-file enumerator,
  the ignore-pattern configuration and the supported-file-type classifier)
  are parameters of the embedded functions; the shape of the snapshot
  listing tool output is modelled from the specification of that
  collaborator.
* Wall-clock "today" (datetime.date.today()) is an explicit parameter.
* Python float arithmetic (math.exp) is abstracted by a weight function
  into the real numbers; the structural computation over the change index
  is embedded generically in that weight.
-/

/-- Exception classes that the embedded Python code can raise. -/
inductive PyErr where
  | valueError
  | keyError
  | indexError
  | typeError
deriving DecidableEq, Repr

/-- Characters treated as whitespace by the Python str.strip and str.split
routines (ASCII fragment; the analysed data never contains the additional
Unicode whitespace code points). -/
def isPySpace (c : Char) : Bool :=
  c = ' ' || c = '\t' || c = '\n' || c = '\r' || c = '\x0b' || c = '\x0c'

/-- Python str.strip on a character list: remove leading and trailing
whitespace. -/
def pyStripL (s : List Char) : List Char :=
  (((s.dropWhile isPySpace).reverse).dropWhile isPySpace).reverse

/-- Python str.strip on strings. -/
def pyStripStr (s : String) : String :=
  ⟨pyStripL s.data⟩

/-- Boolean test that pat is a leading segment of s. -/
def leadsWith : List Char → List Char → Bool
  | [], _ => true
  | _ :: _, [] => false
  | a :: as, b :: bs => a = b && leadsWith as bs

/-- Locate the leftmost occurrence of sep in s: returns the part before the
occurrence and the part after it.  Mirrors the scanning done by Python
str.split / the in operator for a nonempty separator. -/
def splitOnceAux (sep : List Char) : List Char → Option (List Char × List Char)
  | [] => none
  | c :: rest =>
    if leadsWith sep (c :: rest) then some ([], (c :: rest).drop sep.length)
    else
      match splitOnceAux sep rest with
      | some (pre, post) => some (c :: pre, post)
      | none => none

/-- Python s.split(sep, maxsplit) on character lists (sep nonempty). -/
def pySplitAux (sep : List Char) : Nat → List Char → List (List Char)
  | 0, s => [s]
  | n + 1, s =>
    match splitOnceAux sep s with
    | none => [s]
    | some (pre, post) => pre :: pySplitAux sep n post

/-- Python s.split(sep, maxsplit) on strings. -/
def pySplitCapped (sep : String) (maxsplit : Nat) (s : String) : List String :=
  (pySplitAux sep.data maxsplit s.data).map (fun l => ⟨l⟩)

/-- The ::: field delimiter of the commit header lines. -/
def cDelim : List Char := [':', ':', ':']

/-- Python (":::" in line): does the delimiter occur in the string. -/
def hasDelim (s : String) : Bool :=
  (splitOnceAux cDelim s.data).isSome

/-- Python str.split() with no arguments, on character lists: split on runs
of whitespace, discarding leading and trailing whitespace. -/
def pySplitWsAux : List Char → List Char → List (List Char)
  | acc, [] => if acc = [] then [] else [acc.reverse]
  | acc, c :: rest =>
    if isPySpace c then
      if acc = [] then pySplitWsAux [] rest
      else acc.reverse :: pySplitWsAux [] rest
    else pySplitWsAux (c :: acc) rest

/-- Python str.split() with no arguments, on strings. -/
def pySplitWs (s : String) : List String :=
  (pySplitWsAux [] s.data).map (fun l => ⟨l⟩)

/-- Calendar date, mirroring the datetime.date value extracted from a
parsed commit timestamp. -/
structure Date where
  year : Nat
  month : Nat
  day : Nat
deriving DecidableEq, Repr

/-- Gregorian leap-year test, as used by datetime.date. -/
def isLeap (y : Nat) : Bool :=
  y % 4 = 0 && (y % 100 ≠ 0 || y % 400 = 0)

/-- Number of days in a month of a given year, as validated by the
datetime.date constructor. -/
def daysInMonth (y m : Nat) : Nat :=
  if m = 2 then (if isLeap y then 29 else 28)
  else if m = 4 || m = 6 || m = 9 || m = 11 then 30
  else 31

/-- Number of leap years in the range 1..n. -/
def leapsBefore (n : Nat) : Nat :=
  n / 4 + n / 400 - n / 100

/-- Days in the years strictly before year y (y ≥ 1), in the proleptic
Gregorian calendar used by datetime.date.toordinal. -/
def daysBeforeYear (y : Nat) : Nat :=
  365 * (y - 1) + leapsBefore (y - 1)

/-- Days in the months of year y strictly before month m. -/
def daysBeforeMonth (y m : Nat) : Nat :=
  match m with
  | 1 => 0
  | 2 => 31
  | 3 => 59 + (if isLeap y then 1 else 0)
  | 4 => 90 + (if isLeap y then 1 else 0)
  | 5 => 120 + (if isLeap y then 1 else 0)
  | 6 => 151 + (if isLeap y then 1 else 0)
  | 7 => 181 + (if isLeap y then 1 else 0)
  | 8 => 212 + (if isLeap y then 1 else 0)
  | 9 => 243 + (if isLeap y then 1 else 0)
  | 10 => 273 + (if isLeap y then 1 else 0)
  | 11 => 304 + (if isLeap y then 1 else 0)
  | 12 => 334 + (if isLeap y then 1 else 0)
  | _ => 0

/-- datetime.date.toordinal: day number in the proleptic Gregorian
calendar, with January 1 of year 1 mapped to 1.  Subtraction of two dates
in Python returns a timedelta whose day count is the difference of the two
ordinals. -/
def toOrd (d : Date) : Nat :=
  daysBeforeYear d.year + daysBeforeMonth d.year d.month + d.day

/-- Validity of a Date value, as enforced by the datetime.date
constructor (MINYEAR is 1). -/
def validDate (d : Date) : Prop :=
  1 ≤ d.year ∧ 1 ≤ d.month ∧ d.month ≤ 12 ∧ 1 ≤ d.day ∧ d.day ≤ daysInMonth d.year d.month

instance (d : Date) : Decidable (validDate d) := by
  unfold validDate; infer_instance

/-- Calendar order on dates (year, then month, then day). -/
def dateLex (d1 d2 : Date) : Prop :=
  d1.year < d2.year ∨
    (d1.year = d2.year ∧
      (d1.month < d2.month ∨ (d1.month = d2.month ∧ d1.day ≤ d2.day)))

instance (d1 d2 : Date) : Decidable (dateLex d1 d2) := by
  unfold dateLex; infer_instance

/-- Decimal digit value of a character, when it is an ASCII digit. -/
def digitVal (c : Char) : Option Nat :=
  if c.isDigit then some (c.toNat - 48) else none

/-- Consume a numeric field that the strptime regular expression matches
with either two digits (value in lo2..hi2) or, failing that, one digit
(value in lo1..hi1).  This reproduces the left-to-right alternation
behaviour of the CPython _strptime patterns for directives %m %d %H %M %S,
whose two-digit alternatives are listed before the one-digit alternative. -/
def takeField2or1 (lo2 hi2 lo1 hi1 : Nat) : List Char → Option (Nat × List Char)
  | [] => none
  | [c] =>
    match digitVal c with
    | some v => if lo1 ≤ v ∧ v ≤ hi1 then some (v, []) else none
    | none => none
  | c1 :: c2 :: rest =>
    match digitVal c1, digitVal c2 with
    | some v1, some v2 =>
      let v := v1 * 10 + v2
      if lo2 ≤ v ∧ v ≤ hi2 then some (v, rest)
      else if lo1 ≤ v1 ∧ v1 ≤ hi1 then some (v1, c2 :: rest) else none
    | some v1, none =>
      if lo1 ≤ v1 ∧ v1 ≤ hi1 then some (v1, c2 :: rest) else none
    | none, _ => none

/-- Consume exactly four digits (the %Y directive). -/
def take4Digits : List Char → Option (Nat × List Char)
  | c1 :: c2 :: c3 :: c4 :: rest =>
    match digitVal c1, digitVal c2, digitVal c3, digitVal c4 with
    | some v1, some v2, some v3, some v4 =>
      some (((v1 * 10 + v2) * 10 + v3) * 10 + v4, rest)
    | _, _, _, _ => none
  | _ => none

/-- Consume one or more whitespace characters (a literal space in the
strptime format string is compiled to a one-or-more whitespace match). -/
def takeSpaces : List Char → Option (List Char)
  | [] => none
  | c :: rest =>
    if isPySpace c then some (rest.dropWhile isPySpace) else none

/-- Consume a literal character of the format string. -/
def takeLit (ch : Char) : List Char → Option (List Char)
  | [] => none
  | c :: rest => if c = ch then some rest else none

/-- Consume exactly two digits, returning their value. -/
def take2Digits : List Char → Option (Nat × List Char)
  | c1 :: c2 :: rest =>
    match digitVal c1, digitVal c2 with
    | some v1, some v2 => some (v1 * 10 + v2, rest)
    | _, _ => none
  | _ => none

/-- Drop at most n leading digits. -/
def dropDigitsUpTo : Nat → List Char → List Char
  | 0, l => l
  | _, [] => []
  | n + 1, c :: rest => if c.isDigit then dropDigitsUpTo n rest else c :: rest

/-- Consume the %z directive of strptime: a sign, a two-digit hour count,
an optional colon, a two-digit minute count with first digit 0-5, an
optional seconds group, and an optional fractional part, or the single
letter Z; the resulting offset must be strictly smaller than 24 hours
(enforced by the datetime.timezone constructor). -/
def takeZOffset : List Char → Option (List Char)
  | [] => none
  | 'Z' :: rest => some rest
  | c :: rest =>
    if c = '+' ∨ c = '-' then
      match take2Digits rest with
      | none => none
      | some (hh, r1) =>
        let r2 := match r1 with
          | ':' :: r => r
          | r => r
        match take2Digits r2 with
        | none => none
        | some (mm, r3) =>
          if mm ≥ 60 then none
          else
            -- optional seconds group, itself with an optional colon
            let r4 := match r3 with
              | ':' :: r => r
              | r => r
            match take2Digits r4 with
            | some (ss, r5) =>
              if ss ≥ 60 then
                -- digits present but not a valid seconds group: the
                -- regular expression simply does not consume them
                if hh * 3600 + mm * 60 < 86400 then some r3 else none
              else
                let r6 := match r5 with
                  | '.' :: d1 :: rr =>
                    if d1.isDigit then dropDigitsUpTo 5 rr else '.' :: d1 :: rr
                  | r => r
                if hh * 3600 + mm * 60 + ss < 86400 then some r6 else none
            | none =>
              if hh * 3600 + mm * 60 < 86400 then some r3 else none
    else none

/-- datetime.datetime.strptime(s, "%Y-%m-%d %H:%M:%S %z").date(): parse the
timestamp emitted by the git log %ai placeholder and keep its calendar
date.  Returns valueError (the exception raised by strptime or by the
datetime constructor) when the string does not match the format, when a
field is out of range, or when the day does not exist in the parsed
month. -/
def parseGitDatetime (s : String) : Except PyErr Date :=
  match take4Digits s.data with
  | none => .error .valueError
  | some (y, r1) =>
    match takeLit '-' r1 with
    | none => .error .valueError
    | some r2 =>
      match takeField2or1 1 12 1 9 r2 with
      | none => .error .valueError
      | some (mo, r3) =>
        match takeLit '-' r3 with
        | none => .error .valueError
        | some r4 =>
          match takeField2or1 1 31 1 9 r4 with
          | none => .error .valueError
          | some (d, r5) =>
            match takeSpaces r5 with
            | none => .error .valueError
            | some r6 =>
              match takeField2or1 0 23 0 9 r6 with
              | none => .error .valueError
              | some (_, r7) =>
                match takeLit ':' r7 with
                | none => .error .valueError
                | some r8 =>
                  match takeField2or1 0 59 0 9 r8 with
                  | none => .error .valueError
                  | some (_, r9) =>
                    match takeLit ':' r9 with
                    | none => .error .valueError
                    | some r10 =>
                      match takeField2or1 0 59 0 9 r10 with
                      | none => .error .valueError
                      | some (_, r11) =>
                        match takeSpaces r11 with
                        | none => .error .valueError
                        | some r12 =>
                          match takeZOffset r12 with
                          | none => .error .valueError
                          | some r13 =>
                            if r13 = [] then
                              if 1 ≤ y ∧ d ≤ daysInMonth y mo then
                                .ok ⟨y, mo, d⟩
                              else .error .valueError
                            else .error .valueError

/-- Structured commit record produced from one header line: short hash,
age in days relative to today at parse time, author, subject.  The tuple
returned by parse_commit_info in repository.py. -/
structure CommitInfo where
  hash : String
  daysPassed : Int
  author : String
  subject : String
deriving DecidableEq, Repr

/-- parse_commit_info(raw_line) from repository.py: a bounded split of the
line into at most four parts on the ::: delimiter (unpacking raises
ValueError when fewer than four parts result), a strptime parse of the
date field, and an age computed as (today - commit_date).days. -/
def parse_commit_info (today : Date) (rawLine : String) : Except PyErr CommitInfo :=
  match pySplitCapped ":::" 3 rawLine with
  | [commitHash, dateStr, author, commitSubject] =>
    match parseGitDatetime dateStr with
    | .ok commitDate =>
      .ok ⟨commitHash, (toOrd today : Int) - (toOrd commitDate : Int), author, commitSubject⟩
    | .error e => .error e
  | _ => .error .valueError

/-- Lookup in an insertion-ordered association list (a Python dict). -/
def alookup {β : Type} (k : String) : List (String × β) → Option β
  | [] => none
  | (g, v) :: rest => if k = g then some v else alookup k rest

/-- Python dict assignment d[k] = v: update the value in place when the key
exists (keeping its position), otherwise append the binding at the end. -/
def dictInsert {β : Type} (m : List (String × β)) (k : String) (v : β) :
    List (String × β) :=
  match m with
  | [] => [(k, v)]
  | (g, w) :: rest => if k = g then (g, v) :: rest else (g, w) :: dictInsert rest k v

/-- The change index: defaultdict(list) from filename to the commit
records (possibly None) appended for it, in insertion order. -/
abbrev ChangeIndex := List (String × List (Option CommitInfo))

/-- self.file_changes[filename].append(c): defaultdict append, creating
the key at the end of the dict when it is new. -/
def addChange (m : ChangeIndex) (f : String) (c : Option CommitInfo) : ChangeIndex :=
  match m with
  | [] => [(f, [c])]
  | (g, l) :: rest => if f = g then (g, l ++ [c]) :: rest else (g, l) :: addChange rest f c

/-- defaultdict read access self.file_changes[filename]: missing keys
yield the empty list. -/
def changesGetD (m : ChangeIndex) (f : String) : List (Option CommitInfo) :=
  (alookup f m).getD []

/-- State of the streaming loop in analyze_files: the current commit
cursor and the change index built so far. -/
structure BuilderState where
  current : Option CommitInfo
  changes : ChangeIndex
deriving Repr

/-- One iteration of the loop over the log stream in analyze_files:
the line is stripped; if it contains the ::: delimiter it is parsed as a
commit header (a parse failure propagates as an exception); otherwise a
non-empty line is a candidate file path, kept only when its file type is
supported, it matches no ignore pattern, and it belongs to the tracked
file snapshot; a kept path gets the current commit cursor appended to its
change list. -/
def processLine (today : Date) (supported : String → Bool) (ignored : String → Bool)
    (files : List String) (st : BuilderState) (rawLine : String) :
    Except PyErr BuilderState :=
  let line := pyStripStr rawLine
  if hasDelim line then
    match parse_commit_info today line with
    | .ok ci => .ok { st with current := some ci }
    | .error e => .error e
  else if line ≠ "" then
    if !supported line || ignored line || !(decide (line ∈ files)) then .ok st
    else .ok { st with changes := addChange st.changes line st.current }
  else .ok st

/-- Run the streaming loop over all lines of the log stream. -/
def runLines (today : Date) (supported ignored : String → Bool) (files : List String)
    (st : BuilderState) : List String → Except PyErr BuilderState
  | [] => .ok st
  | l :: ls =>
    match processLine today supported ignored files st l with
    | .ok st1 => runLines today supported ignored files st1 ls
    | .error e => .error e

/-- The stream-consuming part of analyze_files: clear the change index,
take the tracked-file snapshot (here a parameter), and fold the loop over
the log stream, returning the rebuilt change index. -/
def analyzeStream (today : Date) (supported ignored : String → Bool)
    (files : List String) (stream : List String) : Except PyErr ChangeIndex :=
  match runLines today supported ignored files ⟨none, []⟩ stream with
  | .ok st => .ok st.changes
  | .error e => .error e

/-- Unpack every element of a commit list: the for loop header
(for _, days_passed, __, ___ in commits) raises TypeError on a None
element. -/
def unwrapAll : List (Option CommitInfo) → Except PyErr (List CommitInfo)
  | [] => .ok []
  | some c :: rest =>
    match unwrapAll rest with
    | .ok cs => .ok (c :: cs)
    | .error e => .error e
  | none :: _ => .error .typeError

/-- _compute_frecency, generic in the per-commit weight function w (the
source computes w as math.exp(-0.01 * days_passed) in floating point; the
weight is abstracted so that the structural computation stays executable):
for each file, in change-index order, sum the weights of its commits. -/
def computeFrecencyWith {S : Type} [Add S] [Zero S] (w : Int → S) :
    ChangeIndex → Except PyErr (List (String × S))
  | [] => .ok []
  | (f, cs) :: rest =>
    match unwrapAll cs with
    | .ok cs1 =>
      match computeFrecencyWith w rest with
      | .ok scores => .ok ((f, (cs1.map (fun c => w c.daysPassed)).sum) :: scores)
      | .error e => .error e
    | .error e => .error e

/-- analyze_files: build the change index from the log stream, then
recompute the frecency scores; any exception in either phase propagates. -/
def analyze_files {S : Type} [Add S] [Zero S] (w : Int → S) (today : Date)
    (supported ignored : String → Bool) (files : List String) (stream : List String) :
    Except PyErr (ChangeIndex × List (String × S)) :=
  match analyzeStream today supported ignored files stream with
  | .ok ch =>
    match computeFrecencyWith w ch with
    | .ok scores => .ok (ch, scores)
    | .error e => .error e
  | .error e => .error e

/-- Parse one output line of the snapshot listing tool, as done inside
_get_all_object_ids: line.index of the tab character raises ValueError
when no tab is present; the identity is token number 2 of the
whitespace-split text before the tab (IndexError when missing); the
filename is everything after the first tab.  Returns (filename, id). -/
def parseLsTreeLine (line : String) : Except PyErr (String × String) :=
  match splitOnceAux ['\t'] line.data with
  | none => .error .valueError
  | some (pre, post) =>
    match (pySplitWsAux [] pre).get? 2 with
    | some oid => .ok (⟨post⟩, ⟨oid⟩)
    | none => .error .indexError

/-- Loop of _get_all_object_ids: fill a dict from the parsed lines. -/
def getAllObjectIdsGo : List String → List (String × String) →
    Except PyErr (List (String × String))
  | [], acc => .ok acc
  | l :: ls, acc =>
    match parseLsTreeLine l with
    | .ok (f, oid) => getAllObjectIdsGo ls (dictInsert acc f oid)
    | .error e => .error e

/-- _get_all_object_ids from repository.py, applied to the lines of the
batch snapshot listing output (an empty filename set spawns no process and
yields an empty dict, which coincides with running the loop on an empty
line list). -/
def getAllObjectIds (outputLines : List String) : Except PyErr (List (String × String)) :=
  getAllObjectIdsGo outputLines []

/-- get_file_object_id from repository.py, applied to the single-path
snapshot listing output: token number 2 of the whitespace-split output,
stripped; IndexError when the output has fewer than three tokens (in
particular when it is empty because the path is absent at HEAD). -/
def get_file_object_id (output : String) : Except PyErr String :=
  match (pySplitWs output).get? 2 with
  | some t => .ok (pyStripStr t)
  | none => .error .indexError

/-- Modelled from the spec: one line of the snapshot listing tool output,
of the form mode, space, type, space, identity, tab, path (section 6 of
the specification; the tool itself is an external collaborator and is not
part of the analysed source). -/
def lsTreeLineFor (oid p : String) : String :=
  "100644 blob " ++ oid ++ "\t" ++ p

/-- Modelled from the spec: the batch snapshot listing output for a set of
queried paths; paths absent from the HEAD snapshot produce no line. -/
def lsTreeBatchOut (snapshot : List (String × String)) (paths : List String) :
    List String :=
  (paths.filter (fun p => (alookup p snapshot).isSome)).map
    (fun p => lsTreeLineFor ((alookup p snapshot).getD "") p)

/-- Modelled from the spec: the single-path snapshot listing output; an
absent path yields empty output (and the tool still exits successfully). -/
def lsTreeSingleOut (snapshot : List (String × String)) (p : String) : String :=
  match alookup p snapshot with
  | some oid => lsTreeLineFor oid p ++ "\n"
  | none => ""

/-- UTF-8 bytes of a string, as produced by str.encode(). -/
def utf8Bytes (s : String) : List Nat :=
  s.toUTF8.data.toList.map (fun b => b.toNat)

/-- Big-endian byte expansion of a value into a fixed number of bytes. -/
def toBytesBE : Nat → Nat → List Nat
  | 0, _ => []
  | k + 1, v => toBytesBE k (v / 256) ++ [v % 256]

/-- SHA-256 padding: append the byte 0x80, then zero bytes until the
length is 56 modulo 64, then the bit length as eight big-endian bytes. -/
def sha256Pad (msg : List Nat) : List Nat :=
  let len := msg.length
  let padZeros := (64 + 55 - len % 64) % 64
  msg ++ [0x80] ++ List.replicate padZeros 0 ++ toBytesBE 8 (len * 8)

/-- Combine four bytes into one big-endian 32-bit word each. -/
def bytesToWords : List Nat → List Nat
  | b1 :: b2 :: b3 :: b4 :: rest => (((b1 * 256 + b2) * 256 + b3) * 256 + b4) :: bytesToWords rest
  | _ => []

/-- Right rotation of a 32-bit word represented as a Nat below 2 ^ 32. -/
def rotr32 (k n : Nat) : Nat :=
  n / 2 ^ k + n % 2 ^ k * 2 ^ (32 - k)

/-- The first SHA-256 small sigma function. -/
def sSig0 (x : Nat) : Nat :=
  rotr32 7 x ^^^ rotr32 18 x ^^^ x / 2 ^ 3

/-- The second SHA-256 small sigma function. -/
def sSig1 (x : Nat) : Nat :=
  rotr32 17 x ^^^ rotr32 19 x ^^^ x / 2 ^ 10

/-- The first SHA-256 big sigma function. -/
def bSig0 (x : Nat) : Nat :=
  rotr32 2 x ^^^ rotr32 13 x ^^^ rotr32 22 x

/-- The second SHA-256 big sigma function. -/
def bSig1 (x : Nat) : Nat :=
  rotr32 6 x ^^^ rotr32 11 x ^^^ rotr32 25 x

/-- The SHA-256 round constants (the fractional parts of the cube roots
of the first sixty-four primes, written in decimal). -/
def sha256K : List Nat :=
  [1116352408, 1899447441, 3049323471, 3921009573, 961987163,
   1508970993, 2453635748, 2870763221, 3624381080, 310598401,
   607225278, 1426881987, 1925078388, 2162078206, 2614888103,
   3248222580, 3835390401, 4022224774, 264347078, 604807628,
   770255983, 1249150122, 1555081692, 1996064986, 2554220882,
   2821834349, 2952996808, 3210313671, 3336571891, 3584528711,
   113926993, 338241895, 666307205, 773529912, 1294757372,
   1396182291, 1695183700, 1986661051, 2177026350, 2456956037,
   2730485921, 2820302411, 3259730800, 3345764771, 3516065817,
   3600352804, 4094571909, 275423344, 430227734, 506948616,
   659060556, 883997877, 958139571, 1322822218, 1537002063,
   1747873779, 1955562222, 2024104815, 2227730452, 2361852424,
   2428436474, 2756734187, 3204031479, 3329325298]

/-- The SHA-256 initial hash state (fractional parts of the square roots
of the first eight primes, written in decimal). -/
def sha256H0 : List Nat :=
  [1779033703, 3144134277, 1013904242, 2773480762,
   1359893119, 2600822924, 528734635, 1541459225]

/-- Extend the sixteen message-schedule words of a chunk to sixty-four. -/
def extendW : Nat → Array Nat → Array Nat
  | 0, w => w
  | n + 1, w =>
    let i := w.size
    let x := (sSig1 (w.getD (i - 2) 0) + w.getD (i - 7) 0 +
              sSig0 (w.getD (i - 15) 0) + w.getD (i - 16) 0) % 2 ^ 32
    extendW n (w.push x)

/-- One SHA-256 compression round. -/
def sha256Round (st : Nat × Nat × Nat × Nat × Nat × Nat × Nat × Nat)
    (wk : Nat × Nat) : Nat × Nat × Nat × Nat × Nat × Nat × Nat × Nat :=
  match st, wk with
  | (a, b, c, d, e, f, g, h), (wi, ki) =>
    let ch := (e &&& f) ^^^ ((e ^^^ 0xffffffff) &&& g)
    let t1 := (h + bSig1 e + ch + ki + wi) % 2 ^ 32
    let mj := (a &&& b) ^^^ (a &&& c) ^^^ (b &&& c)
    let t2 := (bSig0 a + mj) % 2 ^ 32
    ((t1 + t2) % 2 ^ 32, a, b, c, (d + t1) % 2 ^ 32, e, f, g)

/-- Process one 64-byte chunk, updating the eight-word hash state. -/
def sha256Chunk (h : List Nat) (chunk : List Nat) : List Nat :=
  let w := extendW 48 (Array.mk (bytesToWords chunk))
  let wk := w.toList.zip sha256K
  match h with
  | [h0, h1, h2, h3, h4, h5, h6, h7] =>
    match wk.foldl sha256Round (h0, h1, h2, h3, h4, h5, h6, h7) with
    | (a, b, c, d, e, f, g, hh) =>
      [(h0 + a) % 2 ^ 32, (h1 + b) % 2 ^ 32, (h2 + c) % 2 ^ 32, (h3 + d) % 2 ^ 32,
       (h4 + e) % 2 ^ 32, (h5 + f) % 2 ^ 32, (h6 + g) % 2 ^ 32, (h7 + hh) % 2 ^ 32]
  | _ => h

/-- Split a byte list into chunks of sixty-four bytes. -/
def chunks64 : List Nat → List (List Nat)
  | [] => []
  | c :: rest => ((c :: rest).take 64) :: chunks64 ((c :: rest).drop 64)
termination_by l => l.length
decreasing_by simp; omega

/-- Hexadecimal digit for a value below sixteen. -/
def hexDigit (n : Nat) : Char :=
  if n < 10 then Char.ofNat (48 + n) else Char.ofNat (87 + n)

/-- Lower-case hexadecimal rendering of a byte list. -/
def bytesToHex (bs : List Nat) : String :=
  ⟨bs.foldr (fun b acc => hexDigit (b / 16) :: hexDigit (b % 16) :: acc) []⟩

/-- hashlib.sha256(bytes).hexdigest(): the full SHA-256 digest of a byte
list, rendered in hexadecimal. -/
def sha256hex (msg : List Nat) : String :=
  let final := (chunks64 (sha256Pad msg)).foldl sha256Chunk sha256H0
  bytesToHex (final.foldr (fun w acc => toBytesBE 4 w ++ acc) [])

/-- get_status_hash from repository.py: the SHA-256 hex digest of the
concatenation of the stripped HEAD hash output and the stripped working
tree diff output (the two subprocess helpers strip their raw outputs). -/
def get_status_hash (headOut diffOut : String) : String :=
  sha256hex (utf8Bytes (pyStripStr headOut ++ pyStripStr diffOut))

/-- The argument tuple handed to the GitFile presentation object: file
name, absolute path, git object identity, frecency score, and ordered
commit subjects.  The repository back reference of the Python constructor
carries no data relevant to the claims. -/
structure GitFileArgs (S : Type) where
  filename : String
  fullPath : String
  objectId : String
  score : S
  commitMessages : List String
deriving Repr

/-- List comprehension over commits: [commit[3] for commit in commits];
indexing a None commit raises TypeError. -/
def commitSubjects (cs : List (Option CommitInfo)) : Except PyErr (List String) :=
  match unwrapAll cs with
  | .ok l => .ok (l.map (fun c => c.subject))
  | .error e => .error e

/-- Effectful map over a list, propagating the first exception, as a list
comprehension does. -/
def emapM {α β : Type} (g : α → Except PyErr β) : List α → Except PyErr (List β)
  | [] => .ok []
  | a :: as =>
    match g a with
    | .ok b =>
      match emapM g as with
      | .ok bs => .ok (b :: bs)
      | .error e => .error e
    | .error e => .error e

/-- Stable descending insertion step: the new element is placed before the
first element with a key not larger than its own, so it stays after every
strictly larger key and before every equal key coming from later in the
original order. -/
def insertDesc {S : Type} [LinearOrder S] (x : String × S) :
    List (String × S) → List (String × S)
  | [] => [x]
  | y :: ys => if x.2 < y.2 then y :: insertDesc x ys else x :: y :: ys

/-- Python sorted(items, key score, reverse true): a stable sort in
descending key order.  Any two stable sorts performing the same key
comparisons produce the same output list, so the structurally recursive
insertion sort stands in for the library sort of the interpreter. -/
def sortDesc {S : Type} [LinearOrder S] : List (String × S) → List (String × S)
  | [] => []
  | x :: xs => insertDesc x (sortDesc xs)

/-- top_files from repository.py: sort the scored files by descending
score (sorted with reverse=True is a stable descending sort), resolve the
identities of the sorted filenames in one batch (the resolved mapping is a
parameter here), and keep, in sorted order, exactly the files whose
identity was resolved, pairing each with its GitFile argument tuple and
its score. -/
def top_files {S : Type} [LinearOrder S] (repoPath : String)
    (scores : List (String × S)) (changes : ChangeIndex)
    (objectIds : List (String × String)) : Except PyErr (List (GitFileArgs S × S)) :=
  let sortedFiles := sortDesc scores
  let kept := sortedFiles.filter (fun p => (alookup p.1 objectIds).isSome)
  emapM (fun p =>
    match commitSubjects (changesGetD changes p.1) with
    | .ok msgs =>
      .ok (⟨p.1, repoPath ++ "/" ++ p.1, (alookup p.1 objectIds).getD "", p.2, msgs⟩, p.2)
    | .error e => .error e) kept

/-- get_file from repository.py: resolve the single-file object identity
(first, in argument order), then look the filename up in the frecency
scores dict (KeyError when absent), then collect its commit subjects. -/
def get_file {S : Type} (repoPath : String) (singleOut : String)
    (scores : List (String × S)) (changes : ChangeIndex) (filename : String) :
    Except PyErr (GitFileArgs S) :=
  match get_file_object_id singleOut with
  | .error e => .error e
  | .ok oid =>
    match alookup filename scores with
    | none => .error .keyError
    | some score =>
      match commitSubjects (changesGetD changes filename) with
      | .error e => .error e
      | .ok msgs => .ok ⟨filename, repoPath ++ "/" ++ filename, oid, score, msgs⟩

/-! ## Theorems -/

/-- C9, counterexample: two repository states whose working diffs differ
(one has a trailing space and newline, the other a bare newline) receive
the same status fingerprint, because both subprocess outputs are stripped
before hashing; the digest therefore does not separate all byte-distinct
diffs. -/
theorem c9_counterexample :
    get_status_hash "h\n" "line\n" = get_status_hash "h\n" "line \n" ∧
    ("line\n" : String) ≠ "line \n" :=
  ⟨congrArg (fun s => sha256hex (utf8Bytes s)) (by decide), by decide⟩

/-- C9 (amended): the status fingerprint is a deterministic function of
the pair of stripped subprocess outputs: whenever the stripped HEAD output
concatenated with the stripped diff output coincides for two states (in
particular whenever the raw outputs are byte-identical, as across two
invocations with no intervening mutation), the fingerprints coincide.
Distinct states can share a fingerprint (see the counterexample), so
equality of fingerprints does not imply byte-identical inputs. -/
theorem c9_fingerprint_determined (h1 d1 h2 d2 : String)
    (h : pyStripStr h1 ++ pyStripStr d1 = pyStripStr h2 ++ pyStripStr d2) :
    get_status_hash h1 d1 = get_status_hash h2 d2 :=
  congrArg (fun s => sha256hex (utf8Bytes s)) h

/-- Witness for the amended C9 theorem at a concrete input. -/
theorem c9_witness :
    pyStripStr "abc\n" ++ pyStripStr "d\n" = pyStripStr "abc" ++ pyStripStr "d" ∧
    get_status_hash "abc\n" "d\n" = get_status_hash "abc" "d" :=
  ⟨by decide, c9_fingerprint_determined "abc\n" "d\n" "abc" "d" (by decide)⟩

/-- C10: for a filename absent from the frecency score mapping, get_file
never returns a GitFile value (so no default or zero score is ever
synthesized), and when the object identity resolution succeeds the
failure is precisely the KeyError of the score lookup. -/
theorem c10_get_file_no_default {S : Type} (repoPath singleOut : String)
    (scores : List (String × S)) (changes : ChangeIndex) (filename : String)
    (habs : alookup filename scores = none) :
    (∀ v, get_file repoPath singleOut scores changes filename ≠ .ok v) ∧
    (∀ oid, get_file_object_id singleOut = .ok oid →
      get_file repoPath singleOut scores changes filename = .error .keyError) := by
  constructor
  · intro v
    cases hobj : get_file_object_id singleOut with
    | error e => simp [get_file, hobj]
    | ok oid => simp [get_file, hobj, habs]
  · intro oid hobj
    simp [get_file, hobj, habs]

/-- Witness for the C10 theorem at a concrete input. -/
theorem c10_witness :
    alookup "z" [("a", (2 : ℚ))] = none ∧
    (∀ v, get_file "/r" "" [("a", (2 : ℚ))] ([] : ChangeIndex) "z" ≠ .ok v) :=
  ⟨rfl, (c10_get_file_no_default "/r" "" [("a", (2 : ℚ))] [] "z" rfl).1⟩

/-- C2, code evaluation at the failing input: a log stream whose first
line is a tracked, supported, non-ignored file path.  The builder records
a None commit entry for that file (the claim says the line contributes
nothing), and the frecency recomputation then raises TypeError when
unpacking that None, so analyze_files fails; with the leading file line
absent the run succeeds with empty results. -/
theorem c2_leading_file_line_crashes :
    analyzeStream ⟨2024, 1, 15⟩ (fun _ => true) (fun _ => false) ["x.py"] ["x.py"] =
      .ok [("x.py", [none])] ∧
    analyze_files (S := ℚ) (fun _ => 1) ⟨2024, 1, 15⟩ (fun _ => true) (fun _ => false)
      ["x.py"] ["x.py"] = .error .typeError ∧
    analyze_files (S := ℚ) (fun _ => 1) ⟨2024, 1, 15⟩ (fun _ => true) (fun _ => false)
      ["x.py"] [] = .ok ([], []) :=
  ⟨rfl, rfl, rfl⟩

/-- C1, counterexample: a non-empty stripped line that does not begin with
the ### marker but contains the ::: delimiter is nevertheless passed to
the commit header parser: with that file tracked, supported, and not
ignored, the claim predicts the line is recorded as a changed file path,
but the build instead aborts with the ValueError of the header parse. -/
theorem c1_counterexample :
    leadsWith "###".data (pyStripStr "weird:::name.py").data = false ∧
    pyStripStr "weird:::name.py" ≠ "" ∧
    analyzeStream ⟨2024, 1, 15⟩ (fun _ => true) (fun _ => false) ["weird:::name.py"]
      ["###h:::2024-01-15 10:00:00 +0000:::A <a@b.c>:::s", "weird:::name.py"] =
      .error .valueError :=
  ⟨rfl, by decide, rfl⟩

/-- C1 (amended): the builder treats a stripped line as a commit header
exactly when it contains the ::: delimiter somewhere, not when it begins
with the marker prefix: a line containing the delimiter is handed to the
header parser (whose failure aborts the build), and a line without the
delimiter never touches the parser, leaves the current commit cursor
unchanged, and cannot fail. -/
theorem c1_dispatch (today : Date) (supported ignored : String → Bool)
    (files : List String) (st : BuilderState) (rawLine : String) :
    (hasDelim (pyStripStr rawLine) = true →
      processLine today supported ignored files st rawLine =
        match parse_commit_info today (pyStripStr rawLine) with
        | .ok ci => .ok { st with current := some ci }
        | .error e => .error e) ∧
    (hasDelim (pyStripStr rawLine) = false →
      ∃ st1, processLine today supported ignored files st rawLine = .ok st1 ∧
        st1.current = st.current) := by
  constructor
  · intro h
    simp [processLine, h]
  · intro h
    by_cases h2 : pyStripStr rawLine = ""
    · refine ⟨st, ?_, rfl⟩
      have hd : hasDelim "" = false := by decide
      simp [processLine, h2, hd]
    · by_cases h3 : (!supported (pyStripStr rawLine) || ignored (pyStripStr rawLine) ||
        !(decide (pyStripStr rawLine ∈ files))) = true
      · exact ⟨st, by simp [processLine, h, h2, h3], rfl⟩
      · refine ⟨{ st with changes := addChange st.changes (pyStripStr rawLine) st.current },
          by simp [processLine, h, h2, h3], rfl⟩

/-- Keys reachable in an addChange result: an entry is either an old
entry, possibly with the new record appended, or the fresh key. -/
theorem mem_addChange {m : ChangeIndex} {f g : String} {c : Option CommitInfo}
    {l : List (Option CommitInfo)} (h : (g, l) ∈ addChange m f c) :
    (∃ l0, (g, l0) ∈ m) ∨ g = f := by
  induction m with
  | nil =>
    simp [addChange] at h
    exact Or.inr h.1
  | cons p rest ih =>
    obtain ⟨p1, p2⟩ := p
    by_cases hf : f = p1
    · subst hf
      simp [addChange] at h
      rcases h with ⟨h1, _⟩ | h2
      · exact Or.inr h1
      · exact Or.inl ⟨l, by simp [h2]⟩
    · simp [addChange, hf] at h
      rcases h with ⟨h1, h2⟩ | h2
      · exact Or.inl ⟨l, by simp [h1, h2]⟩
      · rcases ih h2 with ⟨l0, hl0⟩ | he
        · exact Or.inl ⟨l0, by simp [hl0]⟩
        · exact Or.inr he

/-- Case analysis of one builder step: the change index is either left
unchanged, or the stripped line passed all three filters and the current
commit cursor was appended to its change list. -/
theorem processLine_changes_cases {today : Date} {supported ignored : String → Bool}
    {files : List String} {st st1 : BuilderState} {l : String}
    (hrun : processLine today supported ignored files st l = .ok st1) :
    st1.changes = st.changes ∨
      (st1.changes = addChange st.changes (pyStripStr l) st.current ∧
        supported (pyStripStr l) = true ∧ ignored (pyStripStr l) = false ∧
        pyStripStr l ∈ files) := by
  simp only [processLine] at hrun
  split at hrun
  · split at hrun
    · left
      simp at hrun
      rw [← hrun]
    · simp at hrun
  · split at hrun
    · split at hrun
      · left
        simp at hrun
        rw [← hrun]
      · right
        rename_i hcond
        simp [not_or] at hcond
        simp at hrun
        rw [← hrun]
        exact ⟨rfl, hcond.1.1, hcond.1.2, hcond.2⟩
    · left
      simp at hrun
      rw [← hrun]

/-- One builder step preserves the three-filter invariant on the keys of
the change index. -/
theorem processLine_filter_inv {today : Date} {supported ignored : String → Bool}
    {files : List String} {st st1 : BuilderState} {l : String}
    (hrun : processLine today supported ignored files st l = .ok st1)
    (hinv : ∀ f cs, (f, cs) ∈ st.changes →
      supported f = true ∧ ignored f = false ∧ f ∈ files) :
    ∀ f cs, (f, cs) ∈ st1.changes →
      supported f = true ∧ ignored f = false ∧ f ∈ files := by
  intro f cs hmem
  rcases processLine_changes_cases hrun with hsame | ⟨hadd, hsup, hign, hfil⟩
  · exact hinv f cs (hsame ▸ hmem)
  · rw [hadd] at hmem
    rcases mem_addChange hmem with ⟨l0, hl0⟩ | he
    · exact hinv f l0 hl0
    · subst he
      exact ⟨hsup, hign, hfil⟩

/-- The streaming loop preserves the three-filter invariant. -/
theorem runLines_filter_inv {today : Date} {supported ignored : String → Bool}
    {files : List String} {st st1 : BuilderState} {ls : List String}
    (hrun : runLines today supported ignored files st ls = .ok st1)
    (hinv : ∀ f cs, (f, cs) ∈ st.changes →
      supported f = true ∧ ignored f = false ∧ f ∈ files) :
    ∀ f cs, (f, cs) ∈ st1.changes →
      supported f = true ∧ ignored f = false ∧ f ∈ files := by
  induction ls generalizing st with
  | nil =>
    simp [runLines] at hrun
    rw [← hrun]
    exact hinv
  | cons l ls ih =>
    unfold runLines at hrun
    cases hp : processLine today supported ignored files st l with
    | ok st2 =>
      rw [hp] at hrun
      exact ih hrun (processLine_filter_inv hp hinv)
    | error e => rw [hp] at hrun; simp at hrun

/-- C5: after a completed analyze_files stream pass, every filename with
an entry in the change index is of a supported file type, matches no
ignore pattern, and belongs to the tracked-file snapshot taken before the
stream was consumed. -/
theorem c5_change_index_filters (today : Date) (supported ignored : String → Bool)
    (files : List String) (stream : List String) (ch : ChangeIndex)
    (hok : analyzeStream today supported ignored files stream = .ok ch) :
    ∀ f cs, (f, cs) ∈ ch →
      supported f = true ∧ ignored f = false ∧ f ∈ files := by
  unfold analyzeStream at hok
  cases hr : runLines today supported ignored files ⟨none, []⟩ stream with
  | ok st =>
    rw [hr] at hok
    simp at hok
    rw [← hok]
    exact runLines_filter_inv hr (by intro f cs h; simp at h)
  | error e => rw [hr] at hok; simp at hok

/-- Witness for the C5 theorem at a concrete input. -/
theorem c5_witness :
    analyzeStream ⟨2024, 1, 16⟩ (fun _ => true) (fun _ => false) ["a.py"]
      ["###h:::2024-01-15 10:00:00 +0000:::A:::s", "a.py"] =
      .ok [("a.py", [some ⟨"###h", 1, "A", "s"⟩])] ∧
    ((fun (_ : String) => true) "a.py" = true ∧
      (fun (_ : String) => false) "a.py" = false ∧ "a.py" ∈ ["a.py"]) :=
  ⟨rfl, c5_change_index_filters ⟨2024, 1, 16⟩ (fun _ => true) (fun _ => false) ["a.py"]
    ["###h:::2024-01-15 10:00:00 +0000:::A:::s", "a.py"]
    [("a.py", [some ⟨"###h", 1, "A", "s"⟩])] rfl "a.py" [some ⟨"###h", 1, "A", "s"⟩]
    (by simp)⟩

/-- The frecency computation, for an arbitrary weight: every change-index
entry whose commits all unwrap receives the sum of its commit weights, in
place, and no other key appears in the result. -/
theorem computeFrecencyWith_lookup {S : Type} [Add S] [Zero S] (w : Int → S)
    (ch : ChangeIndex) (scores : List (String × S))
    (hok : computeFrecencyWith w ch = .ok scores) :
    (∀ f cs, alookup f ch = some cs →
      ∃ cs1, unwrapAll cs = .ok cs1 ∧
        alookup f scores = some ((cs1.map (fun c => w c.daysPassed)).sum)) ∧
    (∀ f, alookup f ch = none → alookup f scores = none) := by
  induction ch generalizing scores with
  | nil =>
    simp [computeFrecencyWith] at hok
    subst hok
    constructor
    · intro f cs h; simp [alookup] at h
    · intro f _; simp [alookup]
  | cons p rest ih =>
    obtain ⟨g, cs0⟩ := p
    unfold computeFrecencyWith at hok
    cases hu : unwrapAll cs0 with
    | error e => rw [hu] at hok; simp at hok
    | ok cs1 =>
      rw [hu] at hok
      cases hrest : computeFrecencyWith w rest with
      | error e => rw [hrest] at hok; simp at hok
      | ok scoresR =>
        rw [hrest] at hok
        simp at hok
        subst hok
        obtain ⟨ih1, ih2⟩ := ih scoresR hrest
        constructor
        · intro f cs hl
          by_cases hf : f = g
          · subst hf
            simp [alookup] at hl ⊢
            exact ⟨cs1, by rw [← hl]; exact hu, rfl⟩
          · simp [alookup, hf] at hl ⊢
            exact ih1 f cs hl
        · intro f hl
          by_cases hf : f = g
          · subst hf; simp [alookup] at hl
          · simp [alookup, hf] at hl ⊢
            exact ih2 f hl

/-- C6: with the weight function exp(-0.01 * ageInDays) into the reals,
the frecency score of every filename with a commit list in the change
index is exactly the sum of the exponential decay contributions of its
commit records, and a filename with no change-index entry has no score
entry at all. -/
theorem c6_frecency_sum (ch : ChangeIndex) (scores : List (String × ℝ))
    (hok : computeFrecencyWith (fun d => Real.exp (-(0.01 : ℝ) * d)) ch = .ok scores) :
    (∀ f cs, alookup f ch = some cs →
      ∃ cs1, unwrapAll cs = .ok cs1 ∧
        alookup f scores =
          some ((cs1.map (fun c => Real.exp (-(0.01 : ℝ) * c.daysPassed))).sum)) ∧
    (∀ f, alookup f ch = none → alookup f scores = none) :=
  computeFrecencyWith_lookup (fun d => Real.exp (-(0.01 : ℝ) * d)) ch scores hok

/-- Witness for the C6 theorem at a concrete input with commit ages 0, 69
and 138 days. -/
theorem c6_witness :
    ∃ cs1,
      unwrapAll [some ⟨"h1", (0 : Int), "a", "s1"⟩, some ⟨"h2", 69, "a", "s2"⟩,
        some ⟨"h3", 138, "a", "s3"⟩] = .ok cs1 ∧
      alookup "f.py"
        [("f.py",
          (([⟨"h1", (0 : Int), "a", "s1"⟩, ⟨"h2", 69, "a", "s2"⟩,
            ⟨"h3", 138, "a", "s3"⟩] : List CommitInfo).map
              (fun c => Real.exp (-(0.01 : ℝ) * c.daysPassed))).sum)] =
        some ((cs1.map (fun c => Real.exp (-(0.01 : ℝ) * c.daysPassed))).sum) := by
  have h := c6_frecency_sum
    [("f.py", [some ⟨"h1", (0 : Int), "a", "s1"⟩, some ⟨"h2", 69, "a", "s2"⟩,
      some ⟨"h3", 138, "a", "s3"⟩])]
    [("f.py",
      (([⟨"h1", (0 : Int), "a", "s1"⟩, ⟨"h2", 69, "a", "s2"⟩,
        ⟨"h3", 138, "a", "s3"⟩] : List CommitInfo).map
          (fun c => Real.exp (-(0.01 : ℝ) * c.daysPassed))).sum)]
    (by simp [computeFrecencyWith, unwrapAll])
  exact h.1 "f.py"
    [some ⟨"h1", (0 : Int), "a", "s1"⟩, some ⟨"h2", 69, "a", "s2"⟩,
      some ⟨"h3", 138, "a", "s3"⟩] rfl

/-- Adding one year to the leap count: the count grows by one exactly for
leap years. -/
theorem leapsBefore_succ (n : Nat) :
    leapsBefore (n + 1) = leapsBefore n + (if isLeap (n + 1) then 1 else 0) := by
  have h4 := Nat.succ_div n 4
  have h100 := Nat.succ_div n 100
  have h400 := Nat.succ_div n 400
  have hle : n / 100 ≤ n / 4 := Nat.div_le_div_left (by norm_num) (by norm_num)
  have himp1 : 100 ∣ n + 1 → 4 ∣ n + 1 := fun h => dvd_trans (by norm_num) h
  have himp2 : 400 ∣ n + 1 → 100 ∣ n + 1 := fun h => dvd_trans (by norm_num) h
  have hm4 : (4 ∣ n + 1) ↔ (n + 1) % 4 = 0 := Nat.dvd_iff_mod_eq_zero
  have hm100 : (100 ∣ n + 1) ↔ (n + 1) % 100 = 0 := Nat.dvd_iff_mod_eq_zero
  have hm400 : (400 ∣ n + 1) ↔ (n + 1) % 400 = 0 := Nat.dvd_iff_mod_eq_zero
  unfold leapsBefore isLeap
  by_cases hd4 : 4 ∣ n + 1 <;> by_cases hd100 : 100 ∣ n + 1 <;>
    by_cases hd400 : 400 ∣ n + 1 <;>
    simp [hd4, hd100, hd400, hm4.mp, hm100.mp, hm400.mp,
      fun h => (not_congr hm4).mp h, fun h => (not_congr hm100).mp h,
      fun h => (not_congr hm400).mp h] at h4 h100 h400 ⊢ <;>
    omega

/-- Day count before a year grows by the year length. -/
theorem daysBeforeYear_succ (y : Nat) (hy : 1 ≤ y) :
    daysBeforeYear (y + 1) = daysBeforeYear y + 365 + (if isLeap y then 1 else 0) := by
  obtain ⟨n, rfl⟩ : ∃ n, y = n + 1 := ⟨y - 1, by omega⟩
  unfold daysBeforeYear
  rw [show n + 1 + 1 - 1 = n + 1 by omega, show n + 1 - 1 = n by omega,
    leapsBefore_succ n]
  by_cases hl : isLeap (n + 1) <;> simp [hl] <;> ring

/-- Day count before a year is monotone in the year. -/
theorem daysBeforeYear_mono {a b : Nat} (h1 : 1 ≤ a) (h : a ≤ b) :
    daysBeforeYear a ≤ daysBeforeYear b := by
  induction b, h using Nat.le_induction with
  | base => exact le_rfl
  | succ n hn ih =>
    have := daysBeforeYear_succ n (le_trans h1 hn)
    omega

/-- A day offset within a valid month stays within the year length. -/
theorem dBM_add_le (y m : Nat) (h1 : 1 ≤ m) (h2 : m ≤ 12) (d : Nat)
    (hd : d ≤ daysInMonth y m) :
    daysBeforeMonth y m + d ≤ 365 + (if isLeap y then 1 else 0) := by
  by_cases hl : isLeap y <;> interval_cases m <;>
    simp [daysBeforeMonth, daysInMonth, hl] at hd ⊢ <;> omega

/-- A day offset within a valid month stays below the offset of any later
month of the same year. -/
theorem dBM_next (y m1 m2 : Nat) (h1 : 1 ≤ m1) (hlt : m1 < m2) (h2 : m2 ≤ 12)
    (d1 : Nat) (hd : d1 ≤ daysInMonth y m1) :
    daysBeforeMonth y m1 + d1 ≤ daysBeforeMonth y m2 := by
  have hub : m1 ≤ 11 := by omega
  by_cases hl : isLeap y <;> interval_cases m1 <;> interval_cases m2 <;>
    simp [daysBeforeMonth, daysInMonth, hl] at hd ⊢ <;> omega

/-- The proleptic Gregorian ordinal is monotone with respect to calendar
order on valid dates. -/
theorem toOrd_mono {d1 d2 : Date} (hv1 : validDate d1) (hv2 : validDate d2)
    (hle : dateLex d1 d2) : toOrd d1 ≤ toOrd d2 := by
  obtain ⟨hy1, hm1a, hm1b, hd1a, hd1b⟩ := hv1
  obtain ⟨hy2, hm2a, hm2b, hd2a, hd2b⟩ := hv2
  unfold toOrd
  rcases hle with hy | ⟨hyeq, hm | ⟨hmeq, hdle⟩⟩
  · have hin := dBM_add_le d1.year d1.month hm1a hm1b d1.day hd1b
    have hstep := daysBeforeYear_succ d1.year hy1
    have hmono : daysBeforeYear (d1.year + 1) ≤ daysBeforeYear d2.year :=
      daysBeforeYear_mono (by omega) (by omega)
    have hpos : 0 ≤ daysBeforeMonth d2.year d2.month := Nat.zero_le _
    by_cases hl : isLeap d1.year <;> simp [hl] at hin hstep <;> omega
  · have hnext := dBM_next d2.year d1.month d2.month hm1a hm hm2b d1.day
      (by rw [← hyeq]; exact hd1b)
    rw [hyeq]
    omega
  · rw [hyeq, hmeq]
    omega

/-- Bounds extracted from a successful two-or-one digit field parse. -/
theorem takeField2or1_bounds {lo2 hi2 lo1 hi1 : Nat} {cs rest : List Char} {v : Nat}
    (h : takeField2or1 lo2 hi2 lo1 hi1 cs = some (v, rest)) :
    (lo2 ≤ v ∧ v ≤ hi2) ∨ (lo1 ≤ v ∧ v ≤ hi1) := by
  match cs with
  | [] => simp [takeField2or1] at h
  | [c] =>
    simp only [takeField2or1] at h
    split at h
    · split at h
      · simp at h
        rename_i hcond
        exact Or.inr (h.1 ▸ hcond)
      · simp at h
    · simp at h
  | c1 :: c2 :: rest0 =>
    simp only [takeField2or1] at h
    split at h
    · split at h
      · simp at h
        rename_i hcond
        exact Or.inl (h.1 ▸ hcond)
      · split at h
        · simp at h
          rename_i hcond
          exact Or.inr (h.1 ▸ hcond)
        · simp at h
    · split at h
      · simp at h
        rename_i hcond
        exact Or.inr (h.1 ▸ hcond)
      · simp at h
    · simp at h

/-- A date produced by the timestamp parser is a valid calendar date. -/
theorem parseGitDatetime_valid {s : String} {d : Date}
    (h : parseGitDatetime s = .ok d) : validDate d := by
  unfold parseGitDatetime at h
  split at h
  next => simp at h
  next y r1 heq1 =>
    split at h
    next => simp at h
    next r2 heq2 =>
      split at h
      next => simp at h
      next mo r3 heq3 =>
        split at h
        next => simp at h
        next r4 heq4 =>
          split at h
          next => simp at h
          next dd r5 heq5 =>
            split at h
            next => simp at h
            next r6 heq6 =>
              split at h
              next => simp at h
              next hh r7 heq7 =>
                split at h
                next => simp at h
                next r8 heq8 =>
                  split at h
                  next => simp at h
                  next mi r9 heq9 =>
                    split at h
                    next => simp at h
                    next r10 heq10 =>
                      split at h
                      next => simp at h
                      next ss r11 heq11 =>
                        split at h
                        next => simp at h
                        next r12 heq12 =>
                          split at h
                          next => simp at h
                          next r13 heq13 =>
                            split at h
                            next hend =>
                              split at h
                              next hrange =>
                                simp at h
                                rw [← h]
                                have hmo := takeField2or1_bounds heq3
                                have hday := takeField2or1_bounds heq5
                                show 1 ≤ y ∧ 1 ≤ mo ∧ mo ≤ 12 ∧ 1 ≤ dd ∧
                                  dd ≤ daysInMonth y mo
                                exact ⟨hrange.1, by omega, by omega, by omega, hrange.2⟩
                              next => simp at h
                            next => simp at h

/-- A field is clean for splitting when no occurrence of the delimiter
starts inside it, even counting characters of the immediately following
delimiter: this is exactly the condition under which Python str.split,
scanning left to right, cuts the joined line at the intended places. -/
def cleanChunkB (field : List Char) : Bool :=
  (List.range field.length).all (fun i => !(leadsWith cDelim ((field ++ cDelim).drop i)))

/-- A list is a leading segment of itself extended by anything. -/
theorem leadsWith_append_self (p x : List Char) : leadsWith p (p ++ x) = true := by
  induction p with
  | nil => rfl
  | cons c cs ih => simp [leadsWith, ih]

/-- The leading-segment test only inspects the first characters. -/
theorem leadsWith_append_left {p x : List Char} (y : List Char)
    (hlen : p.length ≤ x.length) : leadsWith p (x ++ y) = leadsWith p x := by
  induction p generalizing x with
  | nil => rfl
  | cons c cs ih =>
    cases x with
    | nil => simp at hlen
    | cons b bs =>
      simp only [List.cons_append, leadsWith]
      rw [show bs.append y = bs ++ y from rfl, ih (by simpa using hlen)]

/-- The clean condition survives removal of the first character. -/
theorem cleanChunkB_tail {c : Char} {A : List Char}
    (h : cleanChunkB (c :: A) = true) : cleanChunkB A = true := by
  simp [cleanChunkB, List.all_eq_true] at h ⊢
  intro i hi
  have := h (i + 1) (by simpa using Nat.succ_lt_succ hi)
  simpa using this

/-- The clean condition makes the head character of the field differ from
a delimiter occurrence: the leftmost-occurrence scan never fires inside
the field. -/
theorem splitOnceAux_clean {A : List Char} (B : List Char)
    (h : cleanChunkB A = true) :
    splitOnceAux cDelim (A ++ (cDelim ++ B)) = some (A, B) := by
  induction A with
  | nil =>
    show splitOnceAux cDelim (cDelim ++ B) = some ([], B)
    simp [cDelim, splitOnceAux, leadsWith]
  | cons c A1 ih =>
    have h1 : ∀ x < A1.length + 1,
        leadsWith cDelim (List.drop x (c :: (A1 ++ cDelim))) = false := by
      simpa [cleanChunkB] using h
    have h0 : leadsWith cDelim ((c :: A1) ++ cDelim) = false := by
      simpa using h1 0 (by omega)
    have hfalse : leadsWith cDelim ((c :: A1) ++ (cDelim ++ B)) = false := by
      rw [show (c :: A1) ++ (cDelim ++ B) = ((c :: A1) ++ cDelim) ++ B by simp,
        leadsWith_append_left B (by simp [cDelim])]
      exact h0
    show splitOnceAux cDelim (c :: (A1 ++ (cDelim ++ B))) = some (c :: A1, B)
    rw [splitOnceAux]
    rw [show c :: (A1 ++ (cDelim ++ B)) = (c :: A1) ++ (cDelim ++ B) by simp, hfalse]
    simp [ih (cleanChunkB_tail h)]

/-- One bounded-split step cuts exactly at the delimiter following a clean
field. -/
theorem pySplitAux_step {A : List Char} (B : List Char) (n : Nat)
    (hA : cleanChunkB A = true) :
    pySplitAux cDelim (n + 1) (A ++ (cDelim ++ B)) = A :: pySplitAux cDelim n B := by
  conv_lhs => rw [pySplitAux]
  rw [splitOnceAux_clean B hA]

/-- The bounded split with cap three recovers the four fields of a line
joined from three clean fields and an arbitrary tail field. -/
theorem pySplitAux_four {h d a : List Char} (s : List Char)
    (chh : cleanChunkB h = true) (chd : cleanChunkB d = true)
    (cha : cleanChunkB a = true) :
    pySplitAux cDelim 3 (h ++ (cDelim ++ (d ++ (cDelim ++ (a ++ (cDelim ++ s)))))) =
      [h, d, a, s] := by
  rw [show (3 : Nat) = 2 + 1 from rfl, pySplitAux_step _ 2 chh,
    show (2 : Nat) = 1 + 1 from rfl, pySplitAux_step _ 1 chd,
    show (1 : Nat) = 0 + 1 from rfl, pySplitAux_step _ 0 cha]
  rfl

/-- The clean condition at the level of strings. -/
def cleanChunk (f : String) : Bool :=
  cleanChunkB f.data

/-- The bounded split at the level of strings: a header line joined from
three clean fields and a free subject splits back into those fields, the
subject being the whole remainder even when it contains the delimiter. -/
theorem pySplitCapped_four (h0 ds a0 s0 : String)
    (chh : cleanChunk h0 = true) (chd : cleanChunk ds = true)
    (cha : cleanChunk a0 = true) :
    pySplitCapped ":::" 3 (h0 ++ ":::" ++ ds ++ ":::" ++ a0 ++ ":::" ++ s0) =
      [h0, ds, a0, s0] := by
  unfold pySplitCapped
  have hdata : (h0 ++ ":::" ++ ds ++ ":::" ++ a0 ++ ":::" ++ s0).data =
      h0.data ++ (cDelim ++ (ds.data ++ (cDelim ++ (a0.data ++ (cDelim ++ s0.data))))) := by
    simp [String.data_append, List.append_assoc]
    rfl
  rw [show (":::" : String).data = cDelim from rfl, hdata,
    pySplitAux_four s0.data chh chd cha]
  rfl

/-- The header parser fails exactly when the bounded split does not yield
four parts or the date field does not parse. -/
theorem parse_commit_info_error_iff (today : Date) (line : String) :
    (∃ e, parse_commit_info today line = .error e) ↔
      ((pySplitCapped ":::" 3 line).length ≠ 4 ∨
        ∃ h0 ds a0 s0, pySplitCapped ":::" 3 line = [h0, ds, a0, s0] ∧
          ∃ e, parseGitDatetime ds = .error e) := by
  unfold parse_commit_info
  rcases hsp : pySplitCapped ":::" 3 line with _ | ⟨x1, _ | ⟨x2, _ | ⟨x3, _ | ⟨x4, _ | ⟨x5, t⟩⟩⟩⟩⟩ <;>
    dsimp only
  · simp
  · simp
  · simp
  · simp
  · cases hpd : parseGitDatetime x2 with
    | ok cd => simp [hpd]
    | error e =>
      simp [hpd]
      exact ⟨x1, x2, ⟨rfl, rfl⟩, e, hpd⟩
  · simp

/-- C4, counterexample: a line that splits into exactly four parts under
the bounded split can still fail to parse (its date field is not a valid
timestamp), so the parser does not fail exactly when the split yields
fewer than four parts. -/
theorem c4_counterexample :
    (pySplitCapped ":::" 3 "a:::b:::c:::d").length = 4 ∧
    parse_commit_info ⟨2024, 1, 15⟩ "a:::b:::c:::d" = .error .valueError :=
  ⟨rfl, rfl⟩

/-- C4 (amended): the parser uses a bounded split into at most four
pieces; a line joined from three clean fields (no delimiter occurrence
starting inside the field, including at its boundary with the separator)
and an arbitrary subject splits back into exactly those fields, the
subject being the entire remainder even when it contains the delimiter;
and parsing fails exactly when the bounded split does not yield four
parts or when the date field is not a valid timestamp.  The spec example
parses with the author and subject it requires. -/
theorem c4_bounded_split_parse (today : Date) :
    (∀ h0 ds a0 s0 : String, cleanChunk h0 = true → cleanChunk ds = true →
        cleanChunk a0 = true →
        pySplitCapped ":::" 3 (h0 ++ ":::" ++ ds ++ ":::" ++ a0 ++ ":::" ++ s0) =
          [h0, ds, a0, s0]) ∧
    (∀ line : String,
      (∃ e, parse_commit_info today line = .error e) ↔
        ((pySplitCapped ":::" 3 line).length ≠ 4 ∨
          ∃ h0 ds a0 s0, pySplitCapped ":::" 3 line = [h0, ds, a0, s0] ∧
            ∃ e, parseGitDatetime ds = .error e)) ∧
    parse_commit_info ⟨2024, 1, 16⟩
      "abc123:::2024-01-15 10:00:00 +0000:::Jane Doe <j@example.com>:::Fix bug: edge case" =
      .ok ⟨"abc123", 1, "Jane Doe <j@example.com>", "Fix bug: edge case"⟩ :=
  ⟨fun h0 ds a0 s0 chh chd cha => pySplitCapped_four h0 ds a0 s0 chh chd cha,
   fun line => parse_commit_info_error_iff today line,
   rfl⟩

/-- Witness for the C4 amended theorem at a concrete input. -/
theorem c4_witness :
    cleanChunk "abc123" = true ∧
    pySplitCapped ":::" 3 ("abc123" ++ ":::" ++ "2024-01-15 10:00:00 +0000" ++ ":::" ++
      "Jane Doe <j@example.com>" ++ ":::" ++ "Fix bug: edge case") =
      ["abc123", "2024-01-15 10:00:00 +0000", "Jane Doe <j@example.com>",
        "Fix bug: edge case"] :=
  ⟨by decide, (c4_bounded_split_parse ⟨2024, 1, 16⟩).1 "abc123"
    "2024-01-15 10:00:00 +0000" "Jane Doe <j@example.com>" "Fix bug: edge case"
    (by decide) (by decide) (by decide)⟩

/-- C3, counterexample: a commit whose calendar date lies one day after
the current date at parse time produces a record with ageInDays equal to
minus one, so the parser can produce a negative age. -/
theorem c3_counterexample :
    parse_commit_info ⟨2024, 1, 14⟩ "h:::2024-01-15 10:00:00 +0000:::a:::s" =
      .ok ⟨"h", -1, "a", "s"⟩ ∧ (-1 : Int) < 0 :=
  ⟨rfl, by norm_num⟩

/-- C3 (amended): ageInDays is the signed day difference between today at
parse time and the parsed commit calendar date; it is non-negative
whenever the commit date is on or before today (and negative exactly for
future-dated commits). -/
theorem c3_age_nonneg (today : Date) (line h0 ds a0 s0 : String)
    (ci : CommitInfo) (d : Date)
    (hok : parse_commit_info today line = .ok ci)
    (hsplit : pySplitCapped ":::" 3 line = [h0, ds, a0, s0])
    (hd : parseGitDatetime ds = .ok d)
    (htoday : validDate today)
    (hle : dateLex d today) :
    0 ≤ ci.daysPassed := by
  unfold parse_commit_info at hok
  rw [hsplit] at hok
  dsimp only at hok
  rw [hd] at hok
  dsimp only at hok
  simp at hok
  rw [← hok]
  have hvd : validDate d := parseGitDatetime_valid hd
  have hmono := toOrd_mono hvd htoday hle
  simp
  omega

/-- Witness for the C3 amended theorem at a concrete input. -/
theorem c3_witness :
    parse_commit_info ⟨2024, 1, 16⟩ "h:::2024-01-15 10:00:00 +0000:::a:::s" =
      .ok ⟨"h", 1, "a", "s"⟩ ∧
    (0 : Int) ≤ (⟨"h", 1, "a", "s"⟩ : CommitInfo).daysPassed :=
  ⟨rfl, c3_age_nonneg ⟨2024, 1, 16⟩ "h:::2024-01-15 10:00:00 +0000:::a:::s"
    "h" "2024-01-15 10:00:00 +0000" "a" "s" ⟨"h", 1, "a", "s"⟩ ⟨2024, 1, 15⟩
    rfl rfl rfl (by decide) (by decide)⟩

/-- A successful effectful map relates inputs and outputs pointwise. -/
theorem emapM_ok_forall2 {α β : Type} {g : α → Except PyErr β} {l : List α}
    {out : List β} (h : emapM g l = .ok out) :
    List.Forall₂ (fun a b => g a = .ok b) l out := by
  induction l generalizing out with
  | nil =>
    simp [emapM] at h
    rw [h]
    exact List.Forall₂.nil
  | cons a as ih =>
    unfold emapM at h
    cases hga : g a with
    | error e => rw [hga] at h; simp at h
    | ok b =>
      rw [hga] at h
      cases hrest : emapM g as with
      | error e => rw [hrest] at h; simp at h
      | ok bs =>
        rw [hrest] at h
        simp at h
        rw [← h]
        exact List.Forall₂.cons hga (ih hrest)

/-- Mapped images agree along a pointwise relation that determines them. -/
theorem forall2_map_eq {α β γ : Type} {rel : α → β → Prop} {l : List α}
    {out : List β} (h : List.Forall₂ rel l out) (f : β → γ) (g : α → γ)
    (hfg : ∀ a b, rel a b → f b = g a) : out.map f = l.map g := by
  induction h with
  | nil => rfl
  | cons hr _ ih => simp [ih, hfg _ _ hr]

/-- Every output of a pointwise relation has a related input. -/
theorem forall2_mem_right {α β : Type} {rel : α → β → Prop} {l : List α}
    {out : List β} (h : List.Forall₂ rel l out) {b : β} (hb : b ∈ out) :
    ∃ a ∈ l, rel a b := by
  induction h with
  | nil => simp at hb
  | cons hr _ ih =>
    rcases List.mem_cons.mp hb with rfl | hb1
    · exact ⟨_, List.mem_cons_self _ _, hr⟩
    · obtain ⟨a, ha, har⟩ := ih hb1
      exact ⟨a, List.mem_cons_of_mem _ ha, har⟩

/-- A key resolves in an association list exactly when it occurs among the
keys. -/
theorem alookup_some_iff_mem {β : Type} (f : String) (m : List (String × β)) :
    (∃ v, alookup f m = some v) ↔ f ∈ m.map Prod.fst := by
  induction m with
  | nil => simp [alookup]
  | cons p rest ih =>
    obtain ⟨g, v⟩ := p
    by_cases hf : f = g
    · subst hf; simp [alookup]
    · simp [alookup, hf, ih]

/-- With distinct keys, membership determines the lookup result. -/
theorem alookup_eq_of_mem_nodup {β : Type} {m : List (String × β)} {f : String}
    {v : β} (hnd : (m.map Prod.fst).Nodup) (hmem : (f, v) ∈ m) :
    alookup f m = some v := by
  induction m with
  | nil => simp at hmem
  | cons p rest ih =>
    obtain ⟨g, w⟩ := p
    have hnd1 : g ∉ rest.map Prod.fst ∧ (rest.map Prod.fst).Nodup := by
      rw [List.map_cons] at hnd
      exact ⟨(List.nodup_cons.mp hnd).1, (List.nodup_cons.mp hnd).2⟩
    rcases List.mem_cons.mp hmem with heq | hmem1
    · have h1 : f = g ∧ v = w := by simpa using heq
      simp [alookup, h1.1, h1.2]
    · have hne : f ≠ g := by
        intro hcontra
        apply hnd1.1
        rw [← hcontra]
        exact List.mem_map.mpr ⟨(f, v), hmem1, rfl⟩
      simp [alookup, hne]
      exact ih hnd1.2 hmem1

/-- Inserting permutes: the result is the element consed to the list. -/
theorem insertDesc_perm {S : Type} [LinearOrder S] (x : String × S)
    (l : List (String × S)) : (insertDesc x l).Perm (x :: l) := by
  induction l with
  | nil => exact List.Perm.refl _
  | cons y ys ih =>
    by_cases h : x.2 < y.2
    · simp only [insertDesc, h, if_true]
      exact (ih.cons y).trans (List.Perm.swap x y ys)
    · simp only [insertDesc, h, if_false]
      exact List.Perm.refl _

/-- Sorting permutes the input. -/
theorem sortDesc_perm {S : Type} [LinearOrder S] (l : List (String × S)) :
    (sortDesc l).Perm l := by
  induction l with
  | nil => exact List.Perm.refl _
  | cons x xs ih => exact (insertDesc_perm x (sortDesc xs)).trans (ih.cons x)

/-- Inserting into a descending list keeps it descending. -/
theorem insertDesc_pairwise {S : Type} [LinearOrder S] (x : String × S)
    {l : List (String × S)}
    (h : List.Pairwise (fun a b : String × S => b.2 ≤ a.2) l) :
    List.Pairwise (fun a b : String × S => b.2 ≤ a.2) (insertDesc x l) := by
  induction l with
  | nil => simp [insertDesc]
  | cons y ys ih =>
    rcases List.pairwise_cons.mp h with ⟨hy, hys⟩
    by_cases hc : x.2 < y.2
    · simp only [insertDesc, hc, if_true]
      refine List.pairwise_cons.mpr ⟨?_, ih hys⟩
      intro z hz
      rcases List.mem_cons.mp (((insertDesc_perm x ys).mem_iff).mp hz) with rfl | hzys
      · exact le_of_lt hc
      · exact hy z hzys
    · simp only [insertDesc, hc, if_false]
      refine List.pairwise_cons.mpr ⟨?_, h⟩
      intro z hz
      rcases List.mem_cons.mp hz with rfl | hzys
      · exact le_of_not_lt hc
      · exact le_trans (hy z hzys) (le_of_not_lt hc)

/-- The sort produces a descending list. -/
theorem sortDesc_pairwise {S : Type} [LinearOrder S] (l : List (String × S)) :
    List.Pairwise (fun a b : String × S => b.2 ≤ a.2) (sortDesc l) := by
  induction l with
  | nil => simp [sortDesc]
  | cons x xs ih => exact insertDesc_pairwise x ih

/-- C7: when top_files succeeds (with the frecency mapping having the
distinct keys a Python dict guarantees), its output is sorted by
descending score; a filename occurs in the output exactly when it is
scored and its identity was resolved; and every entry carries the score
recorded for its filename and its commit subjects in change-index order,
together with its resolved identity. -/
theorem c7_top_files {S : Type} [LinearOrder S] (repoPath : String)
    (scores : List (String × S)) (changes : ChangeIndex)
    (objectIds : List (String × String)) (out : List (GitFileArgs S × S))
    (hnd : (scores.map Prod.fst).Nodup)
    (hok : top_files repoPath scores changes objectIds = .ok out) :
    List.Pairwise (fun x y => y.2 ≤ x.2) out ∧
    (∀ f, (∃ e ∈ out, e.1.filename = f) ↔
      ((∃ v, alookup f scores = some v) ∧ ∃ oid, alookup f objectIds = some oid)) ∧
    (∀ e ∈ out, alookup e.1.filename scores = some e.2 ∧ e.1.score = e.2 ∧
      commitSubjects (changesGetD changes e.1.filename) = .ok e.1.commitMessages ∧
      alookup e.1.filename objectIds = some e.1.objectId) := by
  simp only [top_files] at hok
  have hfor := emapM_ok_forall2 hok
  have hrel : ∀ (p : String × S) (e : GitFileArgs S × S),
      (match commitSubjects (changesGetD changes p.1) with
        | .ok msgs => Except.ok
            ((⟨p.1, repoPath ++ "/" ++ p.1, (alookup p.1 objectIds).getD "", p.2, msgs⟩ :
              GitFileArgs S), p.2)
        | .error e0 => Except.error e0) = .ok e →
      e.1.filename = p.1 ∧ e.1.score = p.2 ∧ e.2 = p.2 ∧
      commitSubjects (changesGetD changes p.1) = .ok e.1.commitMessages ∧
      e.1.objectId = (alookup p.1 objectIds).getD "" := by
    intro p e h
    cases hcs : commitSubjects (changesGetD changes p.1) with
    | error e0 => rw [hcs] at h; simp at h
    | ok msgs =>
      rw [hcs] at h
      simp at h
      rw [← h]
      exact ⟨rfl, rfl, rfl, rfl, rfl⟩
  have hkept : List.Pairwise (fun a b : String × S => b.2 ≤ a.2)
      ((sortDesc scores).filter (fun p => (alookup p.1 objectIds).isSome)) :=
    (sortDesc_pairwise scores).filter _
  have hmemkept : ∀ p : String × S,
      p ∈ (sortDesc scores).filter (fun p => (alookup p.1 objectIds).isSome) ↔
      p ∈ scores ∧ (alookup p.1 objectIds).isSome := by
    intro p
    rw [List.mem_filter, (sortDesc_perm scores).mem_iff]
  refine ⟨?_, ?_, ?_⟩
  · have hmap2 : out.map (fun e => e.2) =
        ((sortDesc scores).filter (fun p => (alookup p.1 objectIds).isSome)).map
          (fun p => p.2) :=
      forall2_map_eq hfor _ _ (fun p e hr => (hrel p e hr).2.2.1)
    have hp2 : List.Pairwise (fun x y : S => y ≤ x) (out.map (fun e => e.2)) := by
      rw [hmap2]
      exact List.pairwise_map.mpr hkept
    exact List.pairwise_map.mp hp2
  · intro f
    have hmapf : out.map (fun e => e.1.filename) =
        ((sortDesc scores).filter (fun p => (alookup p.1 objectIds).isSome)).map
          Prod.fst :=
      forall2_map_eq hfor _ _ (fun p e hr => (hrel p e hr).1)
    constructor
    · rintro ⟨e, he, rfl⟩
      have hfm : e.1.filename ∈ out.map (fun e => e.1.filename) :=
        List.mem_map.mpr ⟨e, he, rfl⟩
      rw [hmapf] at hfm
      obtain ⟨p, hp, hpf⟩ := List.mem_map.mp hfm
      obtain ⟨hps, hpo⟩ := (hmemkept p).mp hp
      constructor
      · apply (alookup_some_iff_mem _ _).mpr
        rw [← hpf]
        exact List.mem_map.mpr ⟨p, hps, rfl⟩
      · rw [← hpf]
        exact Option.isSome_iff_exists.mp hpo
    · rintro ⟨⟨v, hv⟩, ⟨oid, hoid⟩⟩
      have hfm : f ∈ scores.map Prod.fst := (alookup_some_iff_mem _ _).mp ⟨v, hv⟩
      obtain ⟨p, hps, hpf⟩ := List.mem_map.mp hfm
      have hp : p ∈ (sortDesc scores).filter
          (fun p => (alookup p.1 objectIds).isSome) := by
        apply (hmemkept p).mpr
        refine ⟨hps, ?_⟩
        rw [hpf, hoid]
        rfl
      have hpm : p.1 ∈ ((sortDesc scores).filter
          (fun p => (alookup p.1 objectIds).isSome)).map Prod.fst :=
        List.mem_map.mpr ⟨p, hp, rfl⟩
      rw [← hmapf] at hpm
      obtain ⟨e, he, hef⟩ := List.mem_map.mp hpm
      exact ⟨e, he, by rw [hef, hpf]⟩
  · intro e he
    obtain ⟨p, hp, hr⟩ := forall2_mem_right hfor he
    obtain ⟨hf, hs, he2, hcs, hoid⟩ := hrel p e hr
    obtain ⟨hps, hpo⟩ := (hmemkept p).mp hp
    obtain ⟨oid, ho⟩ := Option.isSome_iff_exists.mp hpo
    refine ⟨?_, ?_, ?_, ?_⟩
    · rw [hf, he2]
      exact alookup_eq_of_mem_nodup hnd (by simpa using hps)
    · rw [hs, he2]
    · rw [hf]
      exact hcs
    · rw [hf, ho, hoid, ho]
      rfl

/-- Witness for the C7 theorem at a concrete input. -/
theorem c7_witness :
    top_files "/repo" [("a", (2 : ℚ)), ("b", 3)]
      [("b", [some ⟨"h1", 5, "au", "s1"⟩])] [("b", "oidb")] =
      .ok [(⟨"b", "/repo/b", "oidb", 3, ["s1"]⟩, 3)] ∧
    ((([("a", (2 : ℚ)), ("b", 3)] : List (String × ℚ)).map Prod.fst).Nodup) ∧
    List.Pairwise (fun x y => y.2 ≤ x.2)
      [((⟨"b", "/repo/b", "oidb", (3 : ℚ), ["s1"]⟩ : GitFileArgs ℚ), (3 : ℚ))] :=
  ⟨rfl, by decide,
    (c7_top_files "/repo" [("a", (2 : ℚ)), ("b", 3)]
      [("b", [some ⟨"h1", 5, "au", "s1"⟩])] [("b", "oidb")]
      [(⟨"b", "/repo/b", "oidb", 3, ["s1"]⟩, 3)] (by decide) rfl).1⟩

/-- The leftmost occurrence of a single-character separator absent from
the prefix is the explicit one. -/
theorem splitOnceAux_single {c : Char} {pre post : List Char}
    (h : c ∉ pre) : splitOnceAux [c] (pre ++ c :: post) = some (pre, post) := by
  induction pre with
  | nil => simp [splitOnceAux, leadsWith]
  | cons b bs ih =>
    have hbc : ¬(c = b) := fun hcb => h (by simp [hcb])
    have hnb : c ∉ bs := fun hmem => h (List.mem_cons_of_mem _ hmem)
    simp only [List.cons_append, splitOnceAux, leadsWith, hbc]
    simp [ih hnb, hbc]

/-- Whitespace splitting of a whitespace-free remainder yields at most one
final token. -/
theorem pySplitWsAux_nospace (acc l : List Char)
    (hl : ∀ c ∈ l, isPySpace c = false) :
    pySplitWsAux acc l = if acc = [] ∧ l = [] then [] else [acc.reverse ++ l] := by
  induction l generalizing acc with
  | nil =>
    by_cases ha : acc = [] <;> simp [pySplitWsAux, ha]
  | cons c rest ih =>
    have hc : isPySpace c = false := hl c (List.mem_cons_self _ _)
    have hrest : ∀ c1 ∈ rest, isPySpace c1 = false :=
      fun c1 hm => hl c1 (List.mem_cons_of_mem _ hm)
    simp [pySplitWsAux, hc, ih (c :: acc) hrest]

/-- Whitespace splitting of the text before the tab of a well-formed
snapshot listing line yields the mode, type and identity tokens. -/
theorem pySplitWs_pre (oid : List Char) (h : ∀ c ∈ oid, isPySpace c = false)
    (hne : oid ≠ []) :
    pySplitWsAux [] ('1' :: '0' :: '0' :: '6' :: '4' :: '4' :: ' ' :: 'b' :: 'l' ::
      'o' :: 'b' :: ' ' :: oid) = [['1', '0', '0', '6', '4', '4'], ['b', 'l', 'o', 'b'], oid] := by
  show ['1', '0', '0', '6', '4', '4'] :: ['b', 'l', 'o', 'b'] :: pySplitWsAux [] oid = _
  rw [pySplitWsAux_nospace [] oid h]
  simp [hne]

/-- Parsing a well-formed snapshot listing line (nonempty identity with no
whitespace) recovers the path and the identity. -/
theorem parseLsTreeLine_wf (oid p : String)
    (hne : oid.data ≠ []) (hws : ∀ c ∈ oid.data, isPySpace c = false) :
    parseLsTreeLine (lsTreeLineFor oid p) = .ok (p, oid) := by
  unfold parseLsTreeLine lsTreeLineFor
  have hdata : ("100644 blob " ++ oid ++ "\t" ++ p).data =
      ('1' :: '0' :: '0' :: '6' :: '4' :: '4' :: ' ' :: 'b' :: 'l' :: 'o' :: 'b' ::
        ' ' :: oid.data) ++ '\t' :: p.data := by
    simp [String.data_append]
  rw [hdata]
  have hnotab : '\t' ∉ ('1' :: '0' :: '0' :: '6' :: '4' :: '4' :: ' ' :: 'b' :: 'l' ::
      'o' :: 'b' :: ' ' :: oid.data) := by
    intro hmem
    simp at hmem
    have := hws '\t' hmem
    simp [isPySpace] at this
  rw [splitOnceAux_single hnotab]
  dsimp only
  rw [pySplitWs_pre oid.data hws hne]
  rfl

/-- A successful lookup comes from a member of the association list. -/
theorem alookup_mem {β : Type} {m : List (String × β)} {f : String} {v : β}
    (h : alookup f m = some v) : (f, v) ∈ m := by
  induction m with
  | nil => simp [alookup] at h
  | cons p rest ih =>
    obtain ⟨g, w⟩ := p
    by_cases hf : f = g
    · subst hf
      simp [alookup] at h
      simp [h]
    · simp [alookup, hf] at h
      exact List.mem_cons_of_mem _ (ih h)

/-- Lookup after a dict assignment. -/
theorem dictInsert_alookup {β : Type} (m : List (String × β)) (k f : String) (v : β) :
    alookup f (dictInsert m k v) = if f = k then some v else alookup f m := by
  induction m with
  | nil =>
    by_cases hf : f = k <;> simp [dictInsert, alookup, hf]
  | cons p rest ih =>
    obtain ⟨g, w⟩ := p
    by_cases hk : k = g
    · subst hk
      by_cases hf : f = k <;> simp [dictInsert, alookup, hf]
    · by_cases hf : f = g
      · subst hf
        have hfk : ¬(f = k) := fun hc => hk hc.symm
        simp [dictInsert, hk, alookup, hfk]
      · simp [dictInsert, hk, alookup, hf, ih]

/-- The batch listing output, one queried path at a time. -/
theorem lsTreeBatchOut_cons (snapshot : List (String × String)) (q : String)
    (qs : List String) :
    lsTreeBatchOut snapshot (q :: qs) =
      if (alookup q snapshot).isSome
      then lsTreeLineFor ((alookup q snapshot).getD "") q :: lsTreeBatchOut snapshot qs
      else lsTreeBatchOut snapshot qs := by
  by_cases hq : (alookup q snapshot).isSome <;>
    simp [lsTreeBatchOut, List.filter, hq]

/-- The batch resolver loop over the listing of a clean snapshot never
fails, and its resulting dict binds exactly the queried paths present in
the snapshot, each to its snapshot identity. -/
theorem getAllObjectIdsGo_spec (snapshot : List (String × String))
    (hclean : ∀ pr ∈ snapshot, pr.2.data ≠ [] ∧ ∀ c ∈ pr.2.data, isPySpace c = false)
    (paths : List String) (acc : List (String × String)) :
    ∃ m, getAllObjectIdsGo (lsTreeBatchOut snapshot paths) acc = .ok m ∧
      ∀ f, alookup f m = if f ∈ paths ∧ (alookup f snapshot).isSome
        then alookup f snapshot else alookup f acc := by
  induction paths generalizing acc with
  | nil =>
    refine ⟨acc, rfl, ?_⟩
    intro f
    simp
  | cons q qs ih =>
    rw [lsTreeBatchOut_cons]
    cases hq : alookup q snapshot with
    | none =>
      simp only [hq, Option.isSome_none, Bool.false_eq_true, if_false]
      obtain ⟨m, hm, hspec⟩ := ih acc
      refine ⟨m, hm, ?_⟩
      intro f
      rw [hspec f]
      by_cases hf : f = q
      · subst hf
        simp [hq]
      · simp [List.mem_cons, hf]
    | some oid =>
      have hmem := alookup_mem hq
      have hoc := hclean (q, oid) hmem
      simp only [hq, Option.isSome_some, if_true, Option.getD_some]
      unfold getAllObjectIdsGo
      rw [parseLsTreeLine_wf oid q hoc.1 hoc.2]
      obtain ⟨m, hm, hspec⟩ := ih (dictInsert acc q oid)
      refine ⟨m, hm, ?_⟩
      intro f
      rw [hspec f, dictInsert_alookup]
      by_cases hf : f = q
      · subst hf
        by_cases hfq : f ∈ qs <;> simp [hq, hfq]
      · simp [List.mem_cons, hf]

/-- C8: batch identity resolution over the snapshot listing returns,
without raising, a mapping defined exactly on the queried filenames
present at HEAD (each bound to its snapshot identity, absent filenames
silently omitted), while the single-file lookup on an absent path fails
with the IndexError that signals a file not in the snapshot. -/
theorem c8_batch_vs_single (snapshot : List (String × String)) (paths : List String)
    (hclean : ∀ pr ∈ snapshot, pr.2 ≠ "" ∧ ∀ c ∈ pr.2.data, isPySpace c = false) :
    (∃ m, getAllObjectIds (lsTreeBatchOut snapshot paths) = .ok m ∧
      ∀ f, alookup f m = if f ∈ paths ∧ (alookup f snapshot).isSome
        then alookup f snapshot else none) ∧
    (∀ q, alookup q snapshot = none →
      get_file_object_id (lsTreeSingleOut snapshot q) = .error .indexError) := by
  constructor
  · have hclean1 : ∀ pr ∈ snapshot, pr.2.data ≠ [] ∧ ∀ c ∈ pr.2.data, isPySpace c = false := by
      intro pr hpr
      refine ⟨?_, (hclean pr hpr).2⟩
      intro hdata
      exact (hclean pr hpr).1 (by
        have : pr.2 = ⟨pr.2.data⟩ := rfl
        rw [this, hdata])
    obtain ⟨m, hm, hspec⟩ := getAllObjectIdsGo_spec snapshot hclean1 paths []
    exact ⟨m, hm, fun f => by rw [hspec f]; simp [alookup]⟩
  · intro q hq
    unfold lsTreeSingleOut
    rw [hq]
    rfl

/-- Witness for the C8 theorem: one absent and two present paths yield
exactly the two present entries. -/
theorem c8_witness :
    (∀ pr ∈ ([("a", "oa"), ("b", "ob")] : List (String × String)),
      pr.2 ≠ "" ∧ ∀ c ∈ pr.2.data, isPySpace c = false) ∧
    (∃ m, getAllObjectIds (lsTreeBatchOut [("a", "oa"), ("b", "ob")] ["x", "a", "b"]) =
        .ok m ∧
      ∀ f, alookup f m = if f ∈ ["x", "a", "b"] ∧
          (alookup f [("a", "oa"), ("b", "ob")]).isSome
        then alookup f [("a", "oa"), ("b", "ob")] else none) :=
  ⟨by decide, (c8_batch_vs_single [("a", "oa"), ("b", "ob")] ["x", "a", "b"]
    (by decide)).1⟩

/-- Witness for the C1 amended theorem at a concrete input. -/
theorem c1_witness :
    hasDelim (pyStripStr "a.py") = false ∧
    ∃ st1, processLine ⟨2024, 1, 15⟩ (fun _ => true) (fun _ => false) ["a.py"]
      ⟨none, []⟩ "a.py" = .ok st1 ∧ st1.current = none :=
  ⟨rfl, (c1_dispatch ⟨2024, 1, 15⟩ (fun _ => true) (fun _ => false) ["a.py"]
    ⟨none, []⟩ "a.py").2 rfl⟩
